import Mathlib

/-!
Verification of the pagination/scraping core of the repository.

Shallow embedding of:
- `src/data_processor.py` (`DataProcessor.merge_paginated_data`,
  `DataProcessor.extract_main_content`)
- `src/page_scraper.py` (`PageScraper._clean_text`,
  `PageScraper._detect_content_type`, `PageScraper._find_next_page_link`,
  `PageScraper.scrape_with_pagination`)
- `src/utils.py` (`retry_on_exception`)

Python dicts produced by `PageScraper._extract_page_content` are modelled as
the structure `PageRecord`; the merged dict produced by
`merge_paginated_data` is the structure `DocumentRecord` (the extra keys
`page_count` / `is_paginated` become extra fields).  Machine-level details
that the claims do not touch (actual DOM rendering, time, logging) are
abstracted as oracle functions passed to the embedded control flow.
-/

namespace SeleniumCrawler

/-- One page's extraction result: the dict returned by
`PageScraper._extract_page_content` in `src/page_scraper.py`
(keys `title`, `url`, `body_text`, `text_elements`, `links`, `metadata`,
`content_type`, `structured_data`, `timestamp`). -/
structure PageRecord where
  title : String
  url : String
  body_text : String
  text_elements : List String
  links : List String
  metadata : List (String × String)
  content_type : String
  structured_data : List (String × String)
  timestamp : Nat
deriving DecidableEq

/-- The merged dict returned by `DataProcessor.merge_paginated_data`:
a copy of the first page's dict with `body_text`, `text_elements`, `links`
overwritten and `page_count` / `is_paginated` added. -/
structure DocumentRecord where
  title : String
  url : String
  body_text : String
  text_elements : List String
  links : List String
  metadata : List (String × String)
  content_type : String
  structured_data : List (String × String)
  timestamp : Nat
  page_count : Nat
  is_paginated : Bool
deriving DecidableEq

/-- `DataProcessor.extract_main_content` (src/data_processor.py lines 97-115):
use `body_text` if present and non-empty (Python truthiness), otherwise join
`text_elements` with a blank line, otherwise the empty string. -/
def extract_main_content (p : PageRecord) : String :=
  if p.body_text ≠ "" then p.body_text
  else if p.text_elements ≠ [] then String.intercalate "\n\n" p.text_elements
  else ""

/-- `DataProcessor.merge_paginated_data` (src/data_processor.py lines 226-272).
The empty input returns the empty dict `{}`, modelled as `none`.
`list(set(all_links))` builds a Python set, whose iteration order is
unspecified; it is modelled as `List.dedup` of the concatenation (the claims
about it are order-insensitive: no duplicates, set membership). -/
def merge_paginated_data (pages_data : List PageRecord) : Option DocumentRecord :=
  match pages_data with
  | [] => none
  | first :: _ =>
    -- all_text collects each page's extract_main_content, skipping falsy ones
    let all_text := (pages_data.map extract_main_content).filter (fun s => s ≠ "")
    some
      { title := first.title
        url := first.url
        body_text := String.intercalate "\n\n" all_text
        text_elements := (pages_data.map PageRecord.text_elements).flatten
        links := ((pages_data.map PageRecord.links).flatten).dedup
        metadata := first.metadata
        content_type := first.content_type
        structured_data := first.structured_data
        timestamp := first.timestamp
        page_count := pages_data.length
        is_paginated := decide (pages_data.length > 1) }

/-! ### Facts about the merge pipeline (claims C3, C8, C9, C10) -/

/-- A concrete page record used as input for concrete evaluations. -/
def samplePage (t : String) (ls : List String) : PageRecord :=
  { title := t
    url := "http://e.x"
    body_text := t
    text_elements := [t]
    links := ls
    metadata := []
    content_type := "general"
    structured_data := []
    timestamp := 0 }

/-- When every record has a non-empty `body_text`, the non-empty filter in
`merge_paginated_data` keeps exactly the records' body texts. -/
theorem all_text_eq_body_texts (ps : List PageRecord)
    (hb : ∀ p ∈ ps, p.body_text ≠ "") :
    (ps.map extract_main_content).filter (fun s => s ≠ "") =
      ps.map PageRecord.body_text := by
  induction ps with
  | nil => rfl
  | cons p ps ih =>
    have hp : p.body_text ≠ "" := hb p (by simp)
    have hext : extract_main_content p = p.body_text := if_pos hp
    simp only [List.map_cons, List.filter_cons, hext]
    rw [if_pos (by simpa using hp)]
    rw [ih (fun q hq => hb q (by simp [hq]))]

/-- C8: `merge_paginated_data` yields a document exactly when the input is
non-empty; on `n` pages the result has `page_count = n` and
`is_paginated ↔ n > 1`. -/
theorem merge_yields_iff_nonempty_page_count :
    merge_paginated_data [] = none ∧
    ∀ (p : PageRecord) (ps : List PageRecord),
      ∃ d, merge_paginated_data (p :: ps) = some d ∧
        d.page_count = (p :: ps).length ∧
        (d.is_paginated = true ↔ (p :: ps).length > 1) := by
  refine ⟨rfl, fun p ps => ⟨_, rfl, rfl, ?_⟩⟩
  simp

/-- C9: merged `links` is the deduplicated union of the input link lists,
and merging `[p1, p2]` or `[p2, p1]` yields the same set of links. -/
theorem merge_links_dedup_union :
    (∀ (ps : List PageRecord) (d : DocumentRecord),
        merge_paginated_data ps = some d →
        d.links.Nodup ∧ ∀ x, x ∈ d.links ↔ ∃ p ∈ ps, x ∈ p.links) ∧
    ∀ (p1 p2 : PageRecord), ∃ d12 d21,
      merge_paginated_data [p1, p2] = some d12 ∧
      merge_paginated_data [p2, p1] = some d21 ∧
      ∀ x, x ∈ d12.links ↔ x ∈ d21.links := by
  constructor
  · intro ps d hd
    cases ps with
    | nil => exact absurd hd (by simp [merge_paginated_data])
    | cons p ps =>
      cases hd
      refine ⟨List.nodup_dedup _, fun x => ?_⟩
      simp [List.mem_dedup, List.mem_flatten]
  · intro p1 p2
    refine ⟨_, _, rfl, rfl, fun x => ?_⟩
    simp only [List.mem_dedup, List.map_cons, List.map_nil, List.flatten_cons,
      List.flatten_nil, List.append_nil, List.mem_append]
    exact Or.comm

/-- Closed instance of C9: the hypothesis `merge_paginated_data ps = some d`
is discharged at a concrete two-page input. -/
theorem merge_links_dedup_union_witness :
    ∃ d, merge_paginated_data [samplePage "a" ["x", "y", "x"], samplePage "b" ["y"]] =
        some d ∧ d.links.Nodup :=
  ⟨_, rfl,
    (merge_links_dedup_union.1 [samplePage "a" ["x", "y", "x"], samplePage "b" ["y"]] _
      rfl).1⟩

/-- C10: every field of the merged document other than the overwritten ones
(`body_text`, `text_elements`, `links`, `page_count`, `is_paginated`) is
carried unchanged from the first record, `title` included. -/
theorem merge_keeps_first_record_fields (p : PageRecord) (ps : List PageRecord) :
    ∃ d, merge_paginated_data (p :: ps) = some d ∧
      d.title = p.title ∧ d.url = p.url ∧ d.metadata = p.metadata ∧
      d.content_type = p.content_type ∧ d.structured_data = p.structured_data ∧
      d.timestamp = p.timestamp :=
  ⟨_, rfl, rfl, rfl, rfl, rfl, rfl, rfl⟩

/-- A page with empty `body_text` but a non-empty fragment list. -/
def fallbackPage : PageRecord :=
  { title := "t"
    url := "u"
    body_text := ""
    text_elements := ["frag"]
    links := []
    metadata := []
    content_type := "general"
    structured_data := []
    timestamp := 0 }

/-- C3 counterexample: for a record with empty `body_text` and a non-empty
fragment list, the merged `body_text` is the joined fragments, not the
record's `body_text` — so `merge([p]).body_text = p.body_text` fails. -/
theorem merge_body_text_counterexample :
    (merge_paginated_data [fallbackPage]).map DocumentRecord.body_text ≠
      some fallbackPage.body_text := by decide

/-- C3 (amended): when every record's `body_text` is non-empty, the merged
`body_text` is the records' body texts joined in order by a blank line;
in particular `merge([p]).body_text = p.body_text` for such `p`. -/
theorem merge_body_text_concat (ps : List PageRecord) (hne : ps ≠ [])
    (hb : ∀ p ∈ ps, p.body_text ≠ "") :
    ∃ d, merge_paginated_data ps = some d ∧
      d.body_text = String.intercalate "\n\n" (ps.map PageRecord.body_text) := by
  cases ps with
  | nil => exact absurd rfl hne
  | cons p ps =>
    exact ⟨_, rfl, by rw [all_text_eq_body_texts _ hb]⟩

/-- Closed instance of C3 (amended) at a concrete two-page input. -/
theorem merge_body_text_concat_witness :
    ∃ d, merge_paginated_data [samplePage "a" [], samplePage "b" []] = some d ∧
      d.body_text = String.intercalate "\n\n"
        ([samplePage "a" [], samplePage "b" []].map PageRecord.body_text) :=
  merge_body_text_concat _ (by decide) (by decide)

/-! ### Next-link resolver (`PageScraper._find_next_page_link`, claim C5) -/

/-- A DOM element as queried by the resolver: its `href` attribute
(`get_attribute` returns `None` when absent, hence `Option`), and the
results of `is_displayed()` / `is_enabled()`. -/
structure DomElement where
  href : Option String
  displayed : Bool
  enabled : Bool

/-- The fixed XPath pattern list of `_find_next_page_link`
(src/page_scraper.py lines 327-335), in source order. -/
def next_page_patterns : List String :=
  ["//a[contains(text(), '下一页')]",
   "//a[contains(text(), 'Next')]",
   "//a[contains(@class, 'next')]",
   "//a[contains(@rel, 'next')]",
   "//a[contains(@aria-label, 'Next')]",
   "//button[contains(text(), '下一页')]",
   "//button[contains(text(), 'Next')]"]

/-- The pattern loop of `_find_next_page_link`: `driver.find_element`
(returning the first element matching the pattern, or raising
`NoSuchElementException`, modelled as `Option`) is tried per pattern; a
found element that is displayed and enabled returns its href; otherwise the
loop moves to the next pattern; after the loop the function returns `None`. -/
def findNextLoop (findElement : String → Option DomElement) :
    List String → Option String
  | [] => none
  | p :: rest =>
    match findElement p with
    | some el => if el.displayed && el.enabled then el.href else findNextLoop findElement rest
    | none => findNextLoop findElement rest

/-- `PageScraper._find_next_page_link` (src/page_scraper.py lines 319-345). -/
def find_next_page_link (findElement : String → Option DomElement) : Option String :=
  findNextLoop findElement next_page_patterns

/-- Restatement of the spec sentence for C5: the first candidate over the
priority-ordered pattern list that is found, displayed and enabled decides
the result (its href); if no pattern yields such a candidate the result is
`none`.  Written from the spec's words, to be compared with the source
translation `find_next_page_link`. -/
def resolveNextSpec (findElement : String → Option DomElement) : Option String :=
  match (next_page_patterns.filterMap fun p =>
      match findElement p with
      | some el => if el.displayed && el.enabled then some el else none
      | none => none).head? with
  | some el => el.href
  | none => none

/-- The loop agrees with the first-match specification on any pattern list. -/
theorem findNextLoop_eq_first_match (findElement : String → Option DomElement)
    (ps : List String) :
    findNextLoop findElement ps =
      (match (ps.filterMap fun p =>
          match findElement p with
          | some el => if el.displayed && el.enabled then some el else none
          | none => none).head? with
       | some el => el.href
       | none => none) := by
  induction ps with
  | nil => rfl
  | cons p rest ih =>
    simp only [findNextLoop, List.filterMap_cons]
    cases h : findElement p with
    | none => exact ih
    | some el =>
      by_cases hde : el.displayed && el.enabled
      · simp [hde]
      · simp only [hde, if_neg, Bool.false_eq_true, not_false_iff, if_false]
        simpa [hde] using ih

/-- C5: `_find_next_page_link` tries its fixed, priority-ordered pattern
list and returns the href of the first found candidate that is displayed
and enabled (first match wins), and `none` when no pattern matches. -/
theorem find_next_page_link_first_match (findElement : String → Option DomElement) :
    find_next_page_link findElement = resolveNextSpec findElement :=
  findNextLoop_eq_first_match findElement next_page_patterns

/-! ### Content-type classification (`PageScraper._detect_content_type`, claim C6) -/

/-- The DOM queries `_detect_content_type` makes besides its `texts`
argument: `driver.current_url`, the number of `//ul/li` elements and the
number of `form` elements. -/
structure PageEnv where
  current_url : String
  ulLiCount : Nat
  formCount : Nat

/-- Article URL keywords (src/page_scraper.py line 264). -/
def article_indicators : List String := ["article", "post", "blog", "news"]

/-- Product URL keywords (src/page_scraper.py line 270). -/
def product_indicators : List String := ["product", "item", "shop", "store", "buy", "price"]

/-- Python `str.lower()` (exact on the ASCII URLs involved). -/
def lowerStr (s : String) : String := ⟨s.data.map Char.toLower⟩

/-- `startsWithL p l` : `p` is a prefix of `l`. -/
def startsWithL : List Char → List Char → Bool
  | [], _ => true
  | _ :: _, [] => false
  | c :: cs, d :: ds => c = d && startsWithL cs ds

/-- `containsSubL n l` : `n` occurs as a contiguous sublist of `l`. -/
def containsSubL (needle : List Char) : List Char → Bool
  | [] => needle.isEmpty
  | c :: rest => startsWithL needle (c :: rest) || containsSubL needle rest

/-- Python `needle in hay` substring test. -/
def containsSub (needle hay : String) : Bool := containsSubL needle.data hay.data

/-- `PageScraper._detect_content_type` (src/page_scraper.py lines 249-284):
empty `texts` is `"unknown"`; then the two URL keyword loops (each an early
`return` on the first hit, i.e. `any`); then the `//ul/li` count and `form`
presence checks; default `"general"`. -/
def detect_content_type (env : PageEnv) (texts : List String) : String :=
  if texts = [] then "unknown"
  else if article_indicators.any (fun k => containsSub k (lowerStr env.current_url)) then
    "article"
  else if product_indicators.any (fun k => containsSub k (lowerStr env.current_url)) then
    "product"
  else if env.ulLiCount > 10 then "list"
  else if env.formCount > 0 then "form"
  else "general"

/-- C6: the classification is the stated priority chain.  The `texts = []`
check necessarily comes first (otherwise the `"unknown"` rule and the
keyword rules would conflict), as in the source. -/
theorem detect_content_type_priority (env : PageEnv) (texts : List String) :
    (detect_content_type env texts = "unknown" ↔ texts = []) ∧
    (texts ≠ [] →
      ((∃ k ∈ article_indicators, containsSub k (lowerStr env.current_url) = true) →
        detect_content_type env texts = "article") ∧
      (¬(∃ k ∈ article_indicators, containsSub k (lowerStr env.current_url) = true) →
        (∃ k ∈ product_indicators, containsSub k (lowerStr env.current_url) = true) →
        detect_content_type env texts = "product") ∧
      (¬(∃ k ∈ article_indicators, containsSub k (lowerStr env.current_url) = true) →
        ¬(∃ k ∈ product_indicators, containsSub k (lowerStr env.current_url) = true) →
        env.ulLiCount > 10 → detect_content_type env texts = "list") ∧
      (¬(∃ k ∈ article_indicators, containsSub k (lowerStr env.current_url) = true) →
        ¬(∃ k ∈ product_indicators, containsSub k (lowerStr env.current_url) = true) →
        ¬(env.ulLiCount > 10) → env.formCount > 0 →
        detect_content_type env texts = "form") ∧
      (¬(∃ k ∈ article_indicators, containsSub k (lowerStr env.current_url) = true) →
        ¬(∃ k ∈ product_indicators, containsSub k (lowerStr env.current_url) = true) →
        ¬(env.ulLiCount > 10) → ¬(env.formCount > 0) →
        detect_content_type env texts = "general")) := by
  constructor
  · by_cases ht : texts = []
    · simp [detect_content_type, ht]
    · simp only [detect_content_type, if_neg ht]
      split_ifs <;> simp [ht]
  · intro ht
    refine ⟨fun h1 => ?_, fun h1 h2 => ?_, fun h1 h2 h3 => ?_,
      fun h1 h2 h3 h4 => ?_, fun h1 h2 h3 h4 => ?_⟩
    · have h1e := List.any_eq_true.mpr h1
      simp [detect_content_type, ht, h1e]
    · have h1e : ¬(article_indicators.any
          (fun k => containsSub k (lowerStr env.current_url)) = true) :=
        fun hc => h1 (List.any_eq_true.mp hc)
      have h2e := List.any_eq_true.mpr h2
      simp [detect_content_type, ht, h1e, h2e]
    · have h1e : ¬(article_indicators.any
          (fun k => containsSub k (lowerStr env.current_url)) = true) :=
        fun hc => h1 (List.any_eq_true.mp hc)
      have h2e : ¬(product_indicators.any
          (fun k => containsSub k (lowerStr env.current_url)) = true) :=
        fun hc => h2 (List.any_eq_true.mp hc)
      simp [detect_content_type, ht, h1e, h2e, h3]
    · have h1e : ¬(article_indicators.any
          (fun k => containsSub k (lowerStr env.current_url)) = true) :=
        fun hc => h1 (List.any_eq_true.mp hc)
      have h2e : ¬(product_indicators.any
          (fun k => containsSub k (lowerStr env.current_url)) = true) :=
        fun hc => h2 (List.any_eq_true.mp hc)
      simp [detect_content_type, ht, h1e, h2e, h3, h4]
    · have h1e : ¬(article_indicators.any
          (fun k => containsSub k (lowerStr env.current_url)) = true) :=
        fun hc => h1 (List.any_eq_true.mp hc)
      have h2e : ¬(product_indicators.any
          (fun k => containsSub k (lowerStr env.current_url)) = true) :=
        fun hc => h2 (List.any_eq_true.mp hc)
      simp [detect_content_type, ht, h1e, h2e, h3, h4]

/-- Closed instance of C6: the priority chain evaluated at a concrete
article-URL page. -/
theorem detect_content_type_priority_witness :
    detect_content_type ⟨"http://e.x/blog/1", 0, 0⟩ ["hello"] = "article" :=
  ((detect_content_type_priority ⟨"http://e.x/blog/1", 0, 0⟩ ["hello"]).2
    (by decide)).1 (by decide)

/-! ### Retry policy (`retry_on_exception`, src/utils.py lines 66-109, claim C7) -/

/-- Exception kinds relevant to the scraper (`utils.py` taxonomy plus a
non-retryable stand-in for any other exception class). -/
inductive PyExc where
  | pageLoadError
  | timeoutException
  | otherError
deriving DecidableEq

/-- One invocation of the wrapped function: a return value or a raised
exception. -/
inductive Attempt (α : Type) where
  | ok (a : α)
  | exc (e : PyExc)
deriving DecidableEq

/-- How a run of the wrapper ends.  `noReturn` models the dead
`return None` after the loop (never reached for a positive attempt
budget). -/
inductive RetryResult (α : Type) where
  | ok (a : α)
  | raised (e : PyExc)
  | noReturn
deriving DecidableEq

/-- Observable behaviour of one run of the wrapper: final result, the
`time.sleep` delays issued between attempts (in order), and how many times
the wrapped function was invoked. -/
structure RetryTrace (α : Type) where
  result : RetryResult α
  sleeps : List Nat
  calls : Nat
deriving DecidableEq

/-- The `for attempt in range(retries + 1)` loop of `retry_on_exception`:
`remaining` counts the loop iterations left (`retries + 1 - attempt`).
On a caught exception with `attempt < retries` the wrapper sleeps
`delay * (attempt + 1)` and continues; on the last attempt it re-raises the
(last) exception; an exception not in `exceptions` propagates at once. -/
def retryAux (delay : Nat) (catches : PyExc → Bool) (op : Nat → Attempt α) :
    Nat → Nat → RetryTrace α
  | _, 0 => ⟨.noReturn, [], 0⟩
  | attempt, remaining + 1 =>
    match op attempt with
    | .ok a => ⟨.ok a, [], 1⟩
    | .exc e =>
      if catches e then
        if remaining > 0 then
          let t := retryAux delay catches op (attempt + 1) remaining
          ⟨t.result, delay * (attempt + 1) :: t.sleeps, t.calls + 1⟩
        else ⟨.raised e, [], 1⟩
      else ⟨.raised e, [], 1⟩

/-- `retry_on_exception(retries, delay, exceptions)` applied to a function
whose attempt-by-attempt outcomes are `op`. -/
def retry_on_exception (retries : Nat) (delay : Nat) (catches : PyExc → Bool)
    (op : Nat → Attempt α) : RetryTrace α :=
  retryAux delay catches op 0 (retries + 1)

theorem retryAux_ok (delay : Nat) (catches : PyExc → Bool) (op : Nat → Attempt α)
    (attempt rem : Nat) (a : α) (h : op attempt = .ok a) :
    retryAux delay catches op attempt (rem + 1) = ⟨.ok a, [], 1⟩ := by
  simp [retryAux, h]

theorem retryAux_caught (delay : Nat) (catches : PyExc → Bool) (op : Nat → Attempt α)
    (attempt rem : Nat) (e : PyExc) (h : op attempt = .exc e) (hc : catches e = true) :
    retryAux delay catches op attempt (rem + 2) =
      ⟨(retryAux delay catches op (attempt + 1) (rem + 1)).result,
       delay * (attempt + 1) :: (retryAux delay catches op (attempt + 1) (rem + 1)).sleeps,
       (retryAux delay catches op (attempt + 1) (rem + 1)).calls + 1⟩ := by
  simp [retryAux, h, hc]

theorem retryAux_last (delay : Nat) (catches : PyExc → Bool) (op : Nat → Attempt α)
    (attempt : Nat) (e : PyExc) (h : op attempt = .exc e) (hc : catches e = true) :
    retryAux delay catches op attempt 1 = ⟨.raised e, [], 1⟩ := by
  simp [retryAux, h, hc]

theorem retryAux_uncaught (delay : Nat) (catches : PyExc → Bool) (op : Nat → Attempt α)
    (attempt rem : Nat) (e : PyExc) (h : op attempt = .exc e) (hc : catches e = false) :
    retryAux delay catches op attempt (rem + 1) = ⟨.raised e, [], 1⟩ := by
  simp [retryAux, h, hc]

/-- The cons/shift step for the linear backoff list. -/
theorem backoff_range_succ (delay attempt rem : Nat) :
    (List.range (rem + 1)).map (fun j => delay * (attempt + j + 1)) =
      delay * (attempt + 1) ::
        (List.range rem).map fun j => delay * (attempt + 1 + j + 1) := by
  rw [List.range_succ_eq_map, List.map_cons, List.map_map]
  refine congrArg₂ List.cons (by ring) (List.map_congr_left fun j _ => ?_)
  simp only [Function.comp_apply, Nat.succ_eq_add_one]
  ring

/-- `retryAux` when every remaining attempt fails with a caught exception:
the last error is re-raised, the backoff delays grow linearly, and every
attempt is used. -/
theorem retryAux_all_fail (delay : Nat) (catches : PyExc → Bool)
    (op : Nat → Attempt α) (es : Nat → PyExc) :
    ∀ remaining attempt,
      (∀ k, attempt ≤ k → k ≤ attempt + remaining →
        op k = .exc (es k) ∧ catches (es k) = true) →
      retryAux delay catches op attempt (remaining + 1) =
        ⟨.raised (es (attempt + remaining)),
         (List.range remaining).map fun j => delay * (attempt + j + 1),
         remaining + 1⟩ := by
  intro remaining
  induction remaining with
  | zero =>
    intro attempt h
    obtain ⟨he, hc⟩ := h attempt le_rfl (by omega)
    simpa using retryAux_last delay catches op attempt _ he hc
  | succ rem ih =>
    intro attempt h
    obtain ⟨he, hc⟩ := h attempt le_rfl (by omega)
    have hrec := ih (attempt + 1) (fun k hk1 hk2 => h k (by omega) (by omega))
    rw [retryAux_caught delay catches op attempt rem _ he hc, hrec,
      backoff_range_succ, show attempt + 1 + rem = attempt + (rem + 1) from by omega]

/-- C7: the retry wrapper retries a retryable-failing operation
`max_attempts` (= `retries`) times with linearly increasing backoff
`base_delay * attempt_number`, re-raising the last error after the final
failed attempt; a non-retryable failure propagates immediately on its first
occurrence, with no further attempt and no further sleep. -/
theorem retry_on_exception_contract (retries delay : Nat) (catches : PyExc → Bool)
    (op : Nat → Attempt α) (es : Nat → PyExc) :
    ((∀ k, k ≤ retries → op k = .exc (es k) ∧ catches (es k) = true) →
      retry_on_exception retries delay catches op =
        ⟨.raised (es retries), (List.range retries).map fun j => delay * (j + 1),
         retries + 1⟩) ∧
    (∀ m, m ≤ retries →
      (∀ k, k < m → op k = .exc (es k) ∧ catches (es k) = true) →
      ∀ e, op m = .exc e → catches e = false →
      retry_on_exception retries delay catches op =
        ⟨.raised e, (List.range m).map fun j => delay * (j + 1), m + 1⟩) := by
  constructor
  · intro h
    have := retryAux_all_fail delay catches op es retries 0
      (fun k hk1 hk2 => h k (by omega))
    simpa [retry_on_exception] using this
  · intro m hm hpre e hop hcat
    unfold retry_on_exception
    -- uncaught failure at the m-th attempt after m caught ones
    suffices hgen : ∀ m attempt remaining, m < remaining →
        (∀ k, attempt ≤ k → k < attempt + m →
          op k = .exc (es k) ∧ catches (es k) = true) →
        op (attempt + m) = .exc e → catches e = false →
        retryAux delay catches op attempt remaining =
          ⟨.raised e, (List.range m).map fun j => delay * (attempt + j + 1), m + 1⟩ by
      have := hgen m 0 (retries + 1) (by omega)
        (fun k hk1 hk2 => hpre k (by omega)) (by simpa using hop) hcat
      simpa using this
    intro m
    induction m with
    | zero =>
      intro attempt remaining hrem hpre' hop' hcat'
      obtain ⟨rem, rfl⟩ : ∃ rem, remaining = rem + 1 := ⟨remaining - 1, by omega⟩
      simp only [Nat.add_zero] at hop'
      simpa using retryAux_uncaught delay catches op attempt rem _ hop' hcat'
    | succ m ih =>
      intro attempt remaining hrem hpre' hop' hcat'
      obtain ⟨rem, hrema⟩ : ∃ rem, remaining = rem + 2 := ⟨remaining - 2, by omega⟩
      subst hrema
      obtain ⟨he, hc⟩ := hpre' attempt le_rfl (by omega)
      have hrec := ih (attempt + 1) (rem + 1) (by omega)
        (fun k hk1 hk2 => hpre' k (by omega) (by omega))
        (by rw [show attempt + 1 + m = attempt + (m + 1) from by omega]; exact hop') hcat'
      rw [retryAux_caught delay catches op attempt rem _ he hc, hrec,
        backoff_range_succ]

/-- The exception classes caught by the decorator on `scrape_page`:
`exceptions=(PageLoadError, TimeoutException)`. -/
def scrapeCatches : PyExc → Bool :=
  fun e => e = PyExc.pageLoadError || e = PyExc.timeoutException

/-- Closed instance of C7: three attempts, all failing with a retryable
error, under `retries = 2`, `delay = 5`: sleeps `[5, 10]`, re-raise. -/
theorem retry_on_exception_contract_witness :
    retry_on_exception (α := Unit) 2 5 scrapeCatches (fun _ => .exc .pageLoadError) =
      ⟨.raised .pageLoadError, [5, 10], 3⟩ := by
  have h := (retry_on_exception_contract (α := Unit) 2 5 scrapeCatches
    (fun _ => .exc .pageLoadError) (fun _ => .pageLoadError)).1
    (fun k _ => ⟨rfl, rfl⟩)
  simpa using h

/-! ### Pagination traversal (`PageScraper.scrape_with_pagination`,
src/page_scraper.py lines 380-419, claims C1, C2) -/

/-- The `while current_url and page_count < MAX_PAGE_DEPTH` loop.
`remaining = maxDepth - count` counts loop iterations still allowed.
`fetch count url` is the outcome of `scrape_page(url)` on the page with
index `count` (`some` content, or `none` when it raises after retry
exhaustion — caught by the `except` arms, which `break`).  `next count` is
what `_find_next_page_link` returns after that page was rendered; a falsy
result (`None` or the empty href) ends the traversal. -/
def scrapeLoop (fetch : Nat → String → Option PageRecord) (next : Nat → Option String) :
    Nat → String → Nat → List PageRecord
  | 0, _, _ => []
  | remaining + 1, current, count =>
    if current = "" then []
    else
      match fetch count current with
      | none => []
      | some page =>
        match next count with
        | none => [page]
        | some u => if u = "" then [page] else page :: scrapeLoop fetch next remaining u (count + 1)

/-- `PageScraper.scrape_with_pagination(start_url)`, as the list of page
records it yields. -/
def scrape_with_pagination (fetch : Nat → String → Option PageRecord)
    (next : Nat → Option String) (maxDepth : Nat) (startUrl : String) :
    List PageRecord :=
  scrapeLoop fetch next maxDepth startUrl 0

theorem scrapeLoop_length_le (fetch : Nat → String → Option PageRecord)
    (next : Nat → Option String) :
    ∀ remaining current count,
      (scrapeLoop fetch next remaining current count).length ≤ remaining := by
  intro remaining
  induction remaining with
  | zero => intro current count; simp [scrapeLoop]
  | succ rem ih =>
    intro current count
    simp only [scrapeLoop]
    split
    · simp
    · cases h : fetch count current with
      | none => simp
      | some page =>
        cases hn : next count with
        | none => simp
        | some u =>
          by_cases hu : u = ""
          · simp [hu]
          · simp only [if_neg hu, List.length_cons]
            exact Nat.succ_le_succ (ih u (count + 1))

/-- C1: the traversal yields at most `maxDepth` pages whatever the
next-link sequence does (cyclic chains included, since `next` is
unconstrained); and at `maxDepth = 1` a successfully fetched start page is
the only yield, whether or not a next link is available. -/
theorem scrape_with_pagination_depth_cap :
    (∀ (fetch : Nat → String → Option PageRecord) (next : Nat → Option String)
        (maxDepth : Nat) (startUrl : String),
      (scrape_with_pagination fetch next maxDepth startUrl).length ≤ maxDepth) ∧
    (∀ (fetch : Nat → String → Option PageRecord) (next : Nat → Option String)
        (startUrl : String) (page : PageRecord),
      startUrl ≠ "" → fetch 0 startUrl = some page →
      scrape_with_pagination fetch next 1 startUrl = [page]) := by
  constructor
  · intro fetch next maxDepth startUrl
    exact scrapeLoop_length_le fetch next maxDepth startUrl 0
  · intro fetch next startUrl page hne hf
    simp only [scrape_with_pagination, scrapeLoop, if_neg hne, hf]
    cases hn : next 0 with
    | none => rfl
    | some u =>
      by_cases hu : u = ""
      · simp [hu]
      · simp [hu, scrapeLoop]

/-- Closed instance of C1: depth cap 1 with a next link available yields
exactly one record. -/
theorem scrape_with_pagination_depth_cap_witness :
    scrape_with_pagination (fun _ _ => some (samplePage "p" []))
      (fun _ => some "http://e.x/2") 1 "http://e.x" = [samplePage "p" []] :=
  scrape_with_pagination_depth_cap.2 _ _ _ _ (by decide) rfl

/-- `scrape_page` as called by the traversal: the `retry_on_exception`
decorator (with `exceptions=(PageLoadError, TimeoutException)`) around the
per-attempt outcomes `attempts count url a`; a final re-raised (or
uncaught) exception surfaces to the traversal loop as `none`. -/
def fetchWithRetry (retries delay : Nat)
    (attempts : Nat → String → Nat → Attempt PageRecord) :
    Nat → String → Option PageRecord :=
  fun count url =>
    match (retry_on_exception retries delay scrapeCatches (attempts count url)).result with
    | .ok a => some a
    | _ => none

/-- The traversal when the page at position `j` fails to fetch: it yields
exactly the pages before `j`. -/
theorem scrapeLoop_partial (fetch : Nat → String → Option PageRecord)
    (next : Nat → Option String) (u : Nat → String) (r : Nat → PageRecord) :
    ∀ j remaining count, j < remaining →
      (∀ i, count ≤ i → i ≤ count + j → u i ≠ "") →
      (∀ i, count ≤ i → i < count + j → next i = some (u (i + 1))) →
      (∀ i, count ≤ i → i < count + j → fetch i (u i) = some (r i)) →
      fetch (count + j) (u (count + j)) = none →
      scrapeLoop fetch next remaining (u count) count =
        (List.range j).map fun i => r (count + i) := by
  intro j
  induction j with
  | zero =>
    intro remaining count hrem hurl hnext hfetch hfail
    obtain ⟨rem, rfl⟩ : ∃ rem, remaining = rem + 1 := ⟨remaining - 1, by omega⟩
    simp only [Nat.add_zero] at hfail
    simp [scrapeLoop, if_neg (hurl count le_rfl (by omega)), hfail]
  | succ j ih =>
    intro remaining count hrem hurl hnext hfetch hfail
    obtain ⟨rem, rfl⟩ : ∃ rem, remaining = rem + 1 := ⟨remaining - 1, by omega⟩
    have hcur : u count ≠ "" := hurl count le_rfl (by omega)
    have hf0 : fetch count (u count) = some (r count) := hfetch count le_rfl (by omega)
    have hn0 : next count = some (u (count + 1)) := hnext count le_rfl (by omega)
    have hu1 : u (count + 1) ≠ "" := hurl (count + 1) (by omega) (by omega)
    have hrec := ih rem (count + 1) (by omega)
      (fun i h1 h2 => hurl i (by omega) (by omega))
      (fun i h1 h2 => hnext i (by omega) (by omega))
      (fun i h1 h2 => hfetch i (by omega) (by omega))
      (by rw [show count + 1 + j = count + (j + 1) from by omega]; exact hfail)
    simp only [scrapeLoop, if_neg hcur, hf0, hn0, if_neg hu1, hrec,
      List.range_succ_eq_map, List.map_cons, List.map_map]
    refine congrArg₂ List.cons (by rw [Nat.add_zero]) ?_
    refine (List.map_congr_left fun i _ => ?_).symm
    simp only [Function.comp_apply, Nat.succ_eq_add_one]
    rw [show count + (i + 1) = count + 1 + i from by omega]

/-- C2: if every retry attempt for page `j` fails with a retryable
exception (so `scrape_page` re-raises after exhausting its budget), the
traversal yields exactly the records of pages `0..j-1` — earlier yields are
preserved, the failing page is absent, and the loop ends normally instead
of propagating the error. -/
theorem scrape_with_pagination_partial_on_failure
    (retries delay maxDepth j : Nat)
    (attempts : Nat → String → Nat → Attempt PageRecord)
    (next : Nat → Option String) (u : Nat → String) (r : Nat → PageRecord)
    (es : Nat → PyExc)
    (hdepth : j < maxDepth)
    (hurl : ∀ i, i ≤ j → u i ≠ "")
    (hnext : ∀ i, i < j → next i = some (u (i + 1)))
    (hfetch : ∀ i, i < j →
      fetchWithRetry retries delay attempts i (u i) = some (r i))
    (hfail : ∀ a, a ≤ retries →
      attempts j (u j) a = .exc (es a) ∧ scrapeCatches (es a) = true) :
    scrape_with_pagination (fetchWithRetry retries delay attempts) next maxDepth (u 0) =
      (List.range j).map r := by
  have hnone : fetchWithRetry retries delay attempts j (u j) = none := by
    have hall := retryAux_all_fail delay scrapeCatches (attempts j (u j)) es retries 0
      (fun k hk1 hk2 => hfail k (by omega))
    unfold fetchWithRetry retry_on_exception
    rw [hall]
  have := scrapeLoop_partial (fetchWithRetry retries delay attempts) next u r j
    maxDepth 0 hdepth
    (fun i h1 h2 => hurl i (by omega))
    (fun i h1 h2 => hnext i (by omega))
    (fun i h1 h2 => hfetch i (by omega))
    (by simpa using hnone)
  simpa [scrape_with_pagination] using this

/-- Closed instance of C2: page 2 of 3 failing on every attempt with
`retries = 2` yields exactly the first page's record. -/
theorem scrape_with_pagination_partial_witness :
    scrape_with_pagination
      (fetchWithRetry 2 1 fun count _ _ =>
        if count = 0 then .ok (samplePage "p1" []) else .exc .pageLoadError)
      (fun _ => some "http://e.x/2")
      3 "http://e.x/1" = [samplePage "p1" []] := by
  have h := scrape_with_pagination_partial_on_failure 2 1 3 1
    (fun count _ _ =>
      if count = 0 then .ok (samplePage "p1" []) else .exc .pageLoadError)
    (fun _ => some "http://e.x/2")
    (fun i => if i = 0 then "http://e.x/1" else "http://e.x/2")
    (fun _ => samplePage "p1" []) (fun _ => .pageLoadError)
    (by omega)
    (fun i _ => by dsimp only; split <;> decide)
    (fun i hi => by
      have : i = 0 := by omega
      subst this
      rfl)
    (fun i hi => by
      have : i = 0 := by omega
      subst this
      rfl)
    (fun a _ => ⟨rfl, rfl⟩)
  simpa using h

/-! ### Text cleaning (`PageScraper._clean_text`, src/page_scraper.py
lines 76-116, claim C4)

The pipeline is embedded over `List Char`, one regex pass per definition,
in source order: `html.unescape`, whitespace collapse
(`' '.join(text.split())`), control-character removal, URL substitution,
email substitution, repeated-terminal-punctuation collapse, script/style
block removal, tag removal, `strip()`.  Scanning functions mirror `re.sub`
left-to-right leftmost-match semantics; the recursions that are not
structural take an explicit fuel argument instantiated with the input
length (always sufficient, since every step consumes at least one
character). -/

/-- Python whitespace as used by `str.split` / `str.strip` / `\s`,
restricted to the Latin-1 range (the spec's data has no wider whitespace). -/
def isPySpace (c : Char) : Bool :=
  c = ' ' || c = '\t' || c = '\n' || c = '\r' ||
    c.val = 11 || c.val = 12 || c.val = 0x85 || c.val = 0xa0

/-- The character class `[\x00-\x1F\x7F-\x9F]` of the control-character
removal step. -/
def isCtrl (c : Char) : Bool :=
  decide (c.toNat ≤ 0x1F) || (decide (0x7F ≤ c.toNat) && decide (c.toNat ≤ 0x9F))

/-- `stripPfx p l` : `some r` when `l = p ++ r`, else `none`. -/
def stripPfx : List Char → List Char → Option (List Char)
  | [], l => some l
  | _ :: _, [] => none
  | p :: ps, c :: cs => if c = p then stripPfx ps cs else none

/-- One step of Python `str.split()` read right-to-left: a whitespace
character closes the word accumulated so far (dropping it when empty). -/
def pyWordsStep (c : Char) (p : List (List Char) × List Char) :
    List (List Char) × List Char :=
  if isPySpace c then ((if p.2 = [] then p.1 else p.2 :: p.1), [])
  else (p.1, c :: p.2)

/-- Close the leftmost accumulated word. -/
def wordsFinish (p : List (List Char) × List Char) : List (List Char) :=
  if p.2 = [] then p.1 else p.2 :: p.1

/-- Python `text.split()`: maximal whitespace-free runs, empties dropped. -/
def pyWords (l : List Char) : List (List Char) :=
  wordsFinish (l.foldr pyWordsStep ([], []))

/-- Python `' '.join(words)`. -/
def joinWords : List (List Char) → List Char
  | [] => []
  | [w] => w
  | w :: w2 :: ws => w ++ ' ' :: joinWords (w2 :: ws)

/-- `' '.join(text.split())` — the whitespace collapse step. -/
def collapseWs (l : List Char) : List Char := joinWords (pyWords l)

/-- `re.sub(r'[\x00-\x1F\x7F-\x9F]', '', text)`. -/
def ctrlFilter (l : List Char) : List Char := l.filter fun c => !isCtrl c

/-- Does `l` start with the given URL head followed by at least one more
character?  Inside a whitespace-free token that trailing character is
necessarily `\S`, as the regex requires. -/
def hasUrlHead (p : String) (l : List Char) : Bool :=
  match stripPfx p.data l with
  | some (_ :: _) => true
  | _ => false

/-- A match of `https?://\S+|www\.\S+` starts here (within a token). -/
def urlMatchAt (l : List Char) : Bool :=
  hasUrlHead "https://" l || hasUrlHead "http://" l || hasUrlHead "www." l

/-- `re.sub(r'https?://\S+|www\.\S+', '[URL]', ·)` within one
whitespace-free token: at the first match position the greedy `\S+` eats
the rest of the token. -/
def urlSubTok : List Char → List Char
  | [] => []
  | c :: rest => if urlMatchAt (c :: rest) then "[URL]".data else c :: urlSubTok rest

/-- After an `@`, does the rest have the `\S+\.\S+` shape — a dot that is
neither the first nor the last character? -/
def emailTail (t : List Char) : Bool := t.tail.dropLast.contains '.'

/-- Is there an `@` somewhere with a valid `\S+\.\S+` continuation? -/
def emailAfterAt : List Char → Bool
  | [] => false
  | c :: rest => (c = '@' && emailTail rest) || emailAfterAt rest

/-- A whitespace-free token matches `\S+@\S+\.\S+` (anchored inside the
token) iff some `@` at index ≥ 1 has a valid continuation; the greedy outer
`\S+`s then stretch the match over the whole token. -/
def emailShape : List Char → Bool
  | [] => false
  | _ :: rest => emailAfterAt rest

/-- `re.sub(r'\S+@\S+\.\S+', '[EMAIL]', ·)` on one token. -/
def emailSubTok (tok : List Char) : List Char :=
  if emailShape tok then "[EMAIL]".data else tok

/-- Apply a per-token substitution to every maximal whitespace-free run,
keeping the whitespace; both `\S`-based regexes never match across
whitespace, so `re.sub` factors through tokens this way.  Fuel is the
input length. -/
def mapTokensF (f : List Char → List Char) : Nat → List Char → List Char
  | 0, l => l
  | _, [] => []
  | n + 1, c :: rest =>
    if isPySpace c then c :: mapTokensF f n rest
    else
      f ((c :: rest).takeWhile fun d => !isPySpace d) ++
        mapTokensF f n ((c :: rest).dropWhile fun d => !isPySpace d)

/-- The URL substitution pass. -/
def urlSub (l : List Char) : List Char := mapTokensF urlSubTok l.length l

/-- The email substitution pass. -/
def emailSub (l : List Char) : List Char := mapTokensF emailSubTok l.length l

/-- The capture class of `([.!?])\1+`. -/
def isTermPunct (c : Char) : Bool := c = '.' || c = '!' || c = '?'

/-- Scanner for `re.sub(r'([.!?])\1+', r'\1', ·)` after the first
character: drop a character that repeats the previous one when that one is
terminal punctuation. -/
def punctAfter : Char → List Char → List Char
  | _, [] => []
  | prev, c :: rest =>
    if isTermPunct prev && c = prev then punctAfter prev rest
    else c :: punctAfter c rest

/-- `re.sub(r'([.!?])\1+', r'\1', ·)`: collapse runs of one repeated
terminal punctuation character to a single occurrence. -/
def punctCollapse : List Char → List Char
  | [] => []
  | c :: rest => c :: punctAfter c rest

/-- Drop through the first occurrence of `pat`, returning the remainder
after it (fuel = length of the scanned list). -/
def dropThroughF (pat : List Char) : Nat → List Char → Option (List Char)
  | 0, _ => none
  | n + 1, l =>
    match stripPfx pat l with
    | some r => some r
    | none =>
      match l with
      | [] => none
      | _ :: rest => dropThroughF pat n rest

/-- For `l` starting with the opening tag: the remainder after the lazy
`.*?>` (first `>`) and then the lazy `.*?` up to the first closing pattern
strictly after that `>`; `none` when the block never closes (then the regex
does not match at this position). -/
def blockSpan (opat cpat : List Char) (l : List Char) : Option (List Char) :=
  match stripPfx opat l with
  | none => none
  | some after =>
    match after.dropWhile (fun d => d ≠ '>') with
    | [] => none
    | _ :: r1 => dropThroughF cpat r1.length r1

/-- Scanner for `re.sub(r'<script.*?>.*?</script>', '', ·, flags=DOTALL)`
(and the style variant): at each position try the block match, else move
one character right. -/
def blockRemoveF (opat cpat : List Char) : Nat → List Char → List Char
  | 0, l => l
  | _, [] => []
  | n + 1, c :: rest =>
    if startsWithL opat (c :: rest) then
      match blockSpan opat cpat (c :: rest) with
      | some rem => blockRemoveF opat cpat n rem
      | none => c :: blockRemoveF opat cpat n rest
    else c :: blockRemoveF opat cpat n rest

/-- The script-block removal pass. -/
def scriptRemove (l : List Char) : List Char :=
  blockRemoveF "<script".data "</script>".data l.length l

/-- The style-block removal pass. -/
def styleRemove (l : List Char) : List Char :=
  blockRemoveF "<style".data "</style>".data l.length l

/-- Scanner for `re.sub(r'<[^>]+>', '', ·)`: a `<` with at least one
non-`>` character before the next `>` removes through that `>`. -/
def tagSubF : Nat → List Char → List Char
  | 0, l => l
  | _, [] => []
  | n + 1, c :: rest =>
    if c = '<' then
      match rest.dropWhile (fun d => d ≠ '>') with
      | [] => c :: tagSubF n rest
      | _ :: rem =>
        if rest.takeWhile (fun d => d ≠ '>') = [] then c :: tagSubF n rest
        else tagSubF n rem
    else c :: tagSubF n rest

/-- The tag removal pass. -/
def tagSub (l : List Char) : List Char := tagSubF l.length l

/-- The predefined XML entities (with semicolon) of `html.unescape`; the
claims only exercise `html.unescape`'s early-return behaviour on
ampersand-free strings, which this models exactly. -/
def tryEntity (l : List Char) : Option (Char × List Char) :=
  match stripPfx "amp;".data l with
  | some r => some ('&', r)
  | none =>
    match stripPfx "lt;".data l with
    | some r => some ('<', r)
    | none =>
      match stripPfx "gt;".data l with
      | some r => some ('>', r)
      | none =>
        match stripPfx "quot;".data l with
        | some r => some ('"', r)
        | none =>
          match stripPfx "#39;".data l with
          | some r => some (Char.ofNat 39, r)
          | none => none

/-- Entity-replacement scan of `html.unescape`. -/
def unescapeF : Nat → List Char → List Char
  | 0, l => l
  | _, [] => []
  | n + 1, c :: rest =>
    if c = '&' then
      match tryEntity rest with
      | some (ch, rem) => ch :: unescapeF n rem
      | none => c :: unescapeF n rest
    else c :: unescapeF n rest

/-- `html.unescape`, including its early return
`if '&' not in s: return s`. -/
def unescape (l : List Char) : List Char :=
  if l.contains '&' then unescapeF l.length l else l

/-- Python `str.strip()`. -/
def pyStrip (l : List Char) : List Char :=
  ((l.dropWhile isPySpace).reverse.dropWhile isPySpace).reverse

/-- `PageScraper._clean_text` on the character list: the guard
`if not text: return ""`, then the nine substitution passes in source
order, then `strip()`. -/
def cleanChars (l : List Char) : List Char :=
  if l = [] then []
  else
    pyStrip (tagSub (styleRemove (scriptRemove (punctCollapse
      (emailSub (urlSub (ctrlFilter (collapseWs (unescape l)))))))))

/-- `PageScraper._clean_text`. -/
def clean (s : String) : String := String.mk (cleanChars s.data)

example : clean "a<b>.</b>." = "a.." := by decide

example : clean (clean "a<b>.</b>.") = "a." := by decide

example : clean "  ho    hum  " = "ho hum" := by decide

example : clean "see https://x.org/a?b=c now" = "see [URL] now" := by decide

example : clean "mail me@you.com ok!!!" = "mail [EMAIL] ok!" := by decide

example : clean "x <script a=2>var j = 1;</script> y" = "x  y" := by decide

example : clean "a \x00 b" = "a  b" := by decide
example : clean "www<b></b>.example.com" = "www.example.com" := by decide
example : clean (clean "www<b></b>.example.com") = "[URL]" := by decide
example : clean "a@b.c!!" = "[EMAIL]" := by decide
example : clean "@b.c" = "@b.c" := by decide
example : clean "@@b.c" = "[EMAIL]" := by decide
example : clean "x@.y" = "x@.y" := by decide
example : clean "x@y." = "x@y." := by decide
example : clean "a..!!??.." = "a.!?." := by decide
example : clean "www. go" = "www. go" := by decide
example : clean "xwww.y" = "x[URL]" := by decide
example : clean "a@www.b.c" = "a@[URL]" := by decide
example : clean "<>x<y>" = "<>x" := by decide
example : clean "<<b>" = "" := by decide
example : clean "&amp;amp;" = "&amp;" := by decide
example : clean "&lt;b&gt;x" = "x" := by decide
example : clean "<scripta></script>" = "" := by decide
example : clean "<script</script>" = "" := by decide
example : clean "he..llo.. wor..ld" = "he.llo. wor.ld" := by decide
example : clean "a  !!  b" = "a ! b" := by decide
example : clean "..a.." = ".a." := by decide
example : clean "a.!.!!" = "a.!.!" := by decide
example : clean "http:// x" = "http:// x" := by decide
example : clean "https://x" = "[URL]" := by decide
example : clean "wwhttp://x" = "ww[URL]" := by decide
example : clean "w  \t\n x" = "w x" := by decide
example : clean "\xa0a\xa0" = "a" := by decide
example : clean "x <style>s</style> y<br/>z" = "x  yz" := by decide
example : clean "end." = "end." := by decide

/-! ### Lemmas towards the idempotence analysis of `clean` (claim C4) -/

/-- Characters that trigger no rewriting pass: not `&` (entities), not `<`
(markup), not `:` or `.` (URL/email patterns) and not a control
character. -/
def okChar (c : Char) : Bool :=
  !(c = '&' || c = '<' || c = ':' || c = '.' || isCtrl c)

theorem okChar_spec {c : Char} (h : okChar c = true) :
    c ≠ '&' ∧ c ≠ '<' ∧ c ≠ ':' ∧ c ≠ '.' ∧ isCtrl c = false := by
  unfold okChar at h
  simp only [Bool.not_eq_true', Bool.or_eq_false_iff, decide_eq_false_iff_not] at h
  exact ⟨h.1.1.1.1, h.1.1.1.2, h.1.1.2, h.1.2, h.2⟩

theorem okChar_space : okChar ' ' = true := by decide

theorem stripPfx_eq_append : ∀ {p l r : List Char}, stripPfx p l = some r → l = p ++ r := by
  intro p
  induction p with
  | nil =>
    intro l r h
    simp only [stripPfx, Option.some.injEq] at h
    simp [h]
  | cons a p ih =>
    intro l r h
    cases l with
    | nil => simp [stripPfx] at h
    | cons c cs =>
      by_cases hc : c = a
      · subst hc
        simp only [stripPfx, if_pos rfl] at h
        simp [ih h]
      · simp [stripPfx, hc] at h

theorem length_dropWhile_le' (p : Char → Bool) :
    ∀ l : List Char, (l.dropWhile p).length ≤ l.length := by
  intro l
  induction l with
  | nil => simp
  | cons a l ih =>
    rw [List.dropWhile_cons]
    split
    · exact Nat.le_trans ih (by simp)
    · simp

theorem mem_of_mem_takeWhile' {p : Char → Bool} {a : Char} :
    ∀ {l : List Char}, a ∈ l.takeWhile p → a ∈ l := by
  intro l
  induction l with
  | nil => simp
  | cons b l ih =>
    intro h
    rw [List.takeWhile_cons] at h
    split at h
    · rcases List.mem_cons.mp h with rfl | h
      · exact List.mem_cons_self _ _
      · exact List.mem_cons_of_mem _ (ih h)
    · simp at h

theorem mem_of_mem_dropWhile' {p : Char → Bool} {a : Char} :
    ∀ {l : List Char}, a ∈ l.dropWhile p → a ∈ l := by
  intro l
  induction l with
  | nil => simp
  | cons b l ih =>
    intro h
    rw [List.dropWhile_cons] at h
    split at h
    · exact List.mem_cons_of_mem _ (ih h)
    · exact h

/-! #### Whitespace collapse -/

theorem pyWordsStep_space {c : Char} (hc : isPySpace c = true)
    (p : List (List Char) × List Char) :
    pyWordsStep c p = (wordsFinish p, []) := by
  simp [pyWordsStep, wordsFinish, hc]

theorem pyWordsStep_nonspace {c : Char} (hc : isPySpace c = false)
    (p : List (List Char) × List Char) :
    pyWordsStep c p = (p.1, c :: p.2) := by
  simp [pyWordsStep, hc]

theorem foldr_nonspace (w : List Char) (hw : ∀ c ∈ w, isPySpace c = false)
    (p : List (List Char) × List Char) :
    w.foldr pyWordsStep p = (p.1, w ++ p.2) := by
  induction w with
  | nil => simp
  | cons c w ih =>
    rw [List.foldr_cons, ih (fun d hd => hw d (List.mem_cons_of_mem _ hd)),
      pyWordsStep_nonspace (hw c (List.mem_cons_self _ _))]
    rfl

theorem pyWords_word (w : List Char) (hw : w ≠ [])
    (hns : ∀ c ∈ w, isPySpace c = false) : pyWords w = [w] := by
  unfold pyWords
  rw [foldr_nonspace w hns ([], [])]
  simp [wordsFinish, hw]

theorem pyWords_word_append_space (w t : List Char) (hw : w ≠ [])
    (hns : ∀ c ∈ w, isPySpace c = false) :
    pyWords (w ++ ' ' :: t) = w :: pyWords t := by
  unfold pyWords
  rw [List.foldr_append, List.foldr_cons,
    pyWordsStep_space (by decide : isPySpace ' ' = true),
    foldr_nonspace w hns]
  simp [wordsFinish, hw]

theorem pyWords_joinWords :
    ∀ ws : List (List Char),
      (∀ w ∈ ws, w ≠ [] ∧ ∀ c ∈ w, isPySpace c = false) →
      pyWords (joinWords ws) = ws := by
  intro ws
  induction ws with
  | nil => intro _; rfl
  | cons w ws ih =>
    intro h
    cases ws with
    | nil =>
      exact pyWords_word w (h w (List.mem_cons_self _ _)).1
        (h w (List.mem_cons_self _ _)).2
    | cons w2 ws2 =>
      rw [joinWords, pyWords_word_append_space w _ (h w (List.mem_cons_self _ _)).1
        (h w (List.mem_cons_self _ _)).2,
        ih (fun x hx => h x (List.mem_cons_of_mem _ hx))]

theorem pyWords_foldr_inv (l : List Char) :
    (∀ w ∈ (l.foldr pyWordsStep ([], [])).1,
        w ≠ [] ∧ ∀ c ∈ w, isPySpace c = false ∧ c ∈ l) ∧
    (∀ c ∈ (l.foldr pyWordsStep ([], [])).2, isPySpace c = false ∧ c ∈ l) := by
  induction l with
  | nil => simp
  | cons a l ih =>
    rw [List.foldr_cons]
    by_cases ha : isPySpace a = true
    · rw [pyWordsStep_space ha]
      refine ⟨?_, by simp⟩
      intro w hw
      unfold wordsFinish at hw
      split at hw
      · obtain ⟨h1, h2⟩ := ih.1 w hw
        exact ⟨h1, fun c hc => ⟨(h2 c hc).1, List.mem_cons_of_mem _ (h2 c hc).2⟩⟩
      · rcases List.mem_cons.mp hw with rfl | hw
        · refine ⟨by assumption, fun c hc => ?_⟩
          obtain ⟨h1, h2⟩ := ih.2 c hc
          exact ⟨h1, List.mem_cons_of_mem _ h2⟩
        · obtain ⟨h1, h2⟩ := ih.1 w hw
          exact ⟨h1, fun c hc => ⟨(h2 c hc).1, List.mem_cons_of_mem _ (h2 c hc).2⟩⟩
    · rw [pyWordsStep_nonspace (by simpa using ha)]
      constructor
      · intro w hw
        obtain ⟨h1, h2⟩ := ih.1 w hw
        exact ⟨h1, fun c hc => ⟨(h2 c hc).1, List.mem_cons_of_mem _ (h2 c hc).2⟩⟩
      · intro c hc
        rcases List.mem_cons.mp hc with rfl | hc
        · exact ⟨by simpa using ha, List.mem_cons_self _ _⟩
        · obtain ⟨h1, h2⟩ := ih.2 c hc
          exact ⟨h1, List.mem_cons_of_mem _ h2⟩

/-- Every word produced by `pyWords` is non-empty, whitespace-free and made
of characters of the input. -/
theorem pyWords_sound (l : List Char) :
    ∀ w ∈ pyWords l, w ≠ [] ∧ ∀ c ∈ w, isPySpace c = false ∧ c ∈ l := by
  intro w hw
  unfold pyWords wordsFinish at hw
  split at hw
  · exact (pyWords_foldr_inv l).1 w hw
  · rcases List.mem_cons.mp hw with rfl | hw
    · exact ⟨by assumption, fun c hc => (pyWords_foldr_inv l).2 c hc⟩
    · exact (pyWords_foldr_inv l).1 w hw

theorem mem_joinWords :
    ∀ (ws : List (List Char)) (c : Char),
      c ∈ joinWords ws → (∃ w ∈ ws, c ∈ w) ∨ c = ' ' := by
  intro ws
  induction ws with
  | nil => simp [joinWords]
  | cons w ws ih =>
    cases ws with
    | nil =>
      intro c hc
      exact Or.inl ⟨w, List.mem_cons_self _ _, hc⟩
    | cons w2 ws2 =>
      intro c hc
      rw [joinWords] at hc
      rcases List.mem_append.mp hc with h | h
      · exact Or.inl ⟨w, List.mem_cons_self _ _, h⟩
      · rcases List.mem_cons.mp h with rfl | h
        · exact Or.inr rfl
        · rcases ih c h with ⟨w', hw', hcw⟩ | h'
          · exact Or.inl ⟨w', List.mem_cons_of_mem _ hw', hcw⟩
          · exact Or.inr h'

theorem joinWords_ne_nil (ws : List (List Char)) (hne : ws ≠ [])
    (h : ∀ w ∈ ws, w ≠ []) : joinWords ws ≠ [] := by
  cases ws with
  | nil => exact absurd rfl hne
  | cons w ws =>
    cases ws with
    | nil => exact h w (List.mem_cons_self _ _)
    | cons w2 ws2 =>
      rw [joinWords]
      cases hw : w with
      | nil => exact absurd hw (h w (List.mem_cons_self _ _))
      | cons a w' => simp

theorem joinWords_head_not_space (ws : List (List Char))
    (h : ∀ w ∈ ws, w ≠ [] ∧ ∀ c ∈ w, isPySpace c = false) :
    ∀ c, (joinWords ws).head? = some c → isPySpace c = false := by
  cases ws with
  | nil => simp [joinWords]
  | cons w ws =>
    obtain ⟨h1, h2⟩ := h w (List.mem_cons_self _ _)
    cases w with
    | nil => exact absurd rfl h1
    | cons a w' =>
      intro c hc
      have hac : c = a := by
        cases ws with
        | nil => simpa [joinWords] using hc.symm
        | cons w2 ws2 => simpa [joinWords] using hc.symm
      subst hac
      exact h2 c (List.mem_cons_self _ _)

theorem joinWords_getLast_not_space :
    ∀ ws : List (List Char),
      (∀ w ∈ ws, w ≠ [] ∧ ∀ c ∈ w, isPySpace c = false) →
      ∀ c, (joinWords ws).getLast? = some c → isPySpace c = false := by
  intro ws
  induction ws with
  | nil => simp [joinWords]
  | cons w ws ih =>
    intro h c hc
    cases ws with
    | nil =>
      have : c ∈ w := List.mem_of_getLast?_eq_some (by simpa [joinWords] using hc)
      exact ((h w (List.mem_cons_self _ _)).2 c this)
    | cons w2 ws2 =>
      rw [joinWords, List.getLast?_append] at hc
      have hJ : joinWords (w2 :: ws2) ≠ [] :=
        joinWords_ne_nil _ (by simp) (fun x hx => (h x (List.mem_cons_of_mem _ hx)).1)
      have hlast : (' ' :: joinWords (w2 :: ws2)).getLast? =
          (joinWords (w2 :: ws2)).getLast? := by
        rw [show ' ' :: joinWords (w2 :: ws2) = [' '] ++ joinWords (w2 :: ws2) from rfl,
          List.getLast?_append]
        cases hJl : (joinWords (w2 :: ws2)).getLast? with
        | none => exact absurd (List.getLast?_eq_none_iff.mp hJl) hJ
        | some d => rfl
      rw [hlast] at hc
      cases hJl : (joinWords (w2 :: ws2)).getLast? with
      | none => exact absurd (List.getLast?_eq_none_iff.mp hJl) hJ
      | some d =>
        rw [hJl] at hc
        simp only [Option.or_some, Option.some.injEq] at hc
        exact ih (fun x hx => h x (List.mem_cons_of_mem _ hx)) c (by rw [hJl, hc])

theorem dropWhile_eq_self_of_head (p : Char → Bool) (l : List Char)
    (h : ∀ c, l.head? = some c → p c = false) : l.dropWhile p = l := by
  cases l with
  | nil => rfl
  | cons a l => simp [List.dropWhile_cons, h a rfl]

theorem pyStrip_eq_self (l : List Char)
    (h1 : ∀ c, l.head? = some c → isPySpace c = false)
    (h2 : ∀ c, l.getLast? = some c → isPySpace c = false) : pyStrip l = l := by
  unfold pyStrip
  rw [dropWhile_eq_self_of_head _ l h1,
    dropWhile_eq_self_of_head _ l.reverse
      (fun c hc => h2 c (by rwa [List.head?_reverse] at hc)),
    List.reverse_reverse]

/-! #### Punctuation collapse -/

/-- The no-repeat relation: `b` may follow `a` unless `a` is terminal
punctuation repeated by `b`. -/
def punctOk (a b : Char) : Prop := ¬(isTermPunct a = true ∧ b = a)

theorem punctAfter_subset :
    ∀ (l : List Char) (p : Char) (c : Char), c ∈ punctAfter p l → c ∈ l := by
  intro l
  induction l with
  | nil => simp [punctAfter]
  | cons a l ih =>
    intro p c hc
    rw [punctAfter] at hc
    split at hc
    · exact List.mem_cons_of_mem _ (ih p c hc)
    · rcases List.mem_cons.mp hc with rfl | hc
      · exact List.mem_cons_self _ _
      · exact List.mem_cons_of_mem _ (ih a c hc)

theorem punctAfter_chain :
    ∀ (l : List Char) (p : Char), List.Chain punctOk p (punctAfter p l) := by
  intro l
  induction l with
  | nil => intro p; exact List.Chain.nil
  | cons a l ih =>
    intro p
    by_cases h : (isTermPunct p && a = p) = true
    · rw [punctAfter, if_pos h]
      exact ih p
    · rw [punctAfter, if_neg h]
      refine List.Chain.cons ?_ (ih a)
      intro ⟨h1, h2⟩
      exact h (by simp [h1, h2])

theorem punctAfter_of_chain :
    ∀ (l : List Char) (p : Char), List.Chain punctOk p l → punctAfter p l = l := by
  intro l
  induction l with
  | nil => intro p _; rfl
  | cons a l ih =>
    intro p hch
    rcases hch with _ | ⟨hR, hch'⟩
    have hcond : (isTermPunct p && a = p) = false := by
      cases hp : isTermPunct p
      · simp
      · cases hap : (a = p : Bool)
        · simp
        · exact absurd ⟨hp, by simpa using hap⟩ hR
    rw [punctAfter, if_neg (by simp [hcond]), ih a hch']

theorem punctCollapse_idem (l : List Char) :
    punctCollapse (punctCollapse l) = punctCollapse l := by
  cases l with
  | nil => rfl
  | cons c rest =>
    show punctCollapse (c :: punctAfter c rest) = c :: punctAfter c rest
    rw [punctCollapse, punctAfter_of_chain _ c (punctAfter_chain rest c)]

theorem punctAfter_space_head (t : List Char) : punctAfter ' ' t = punctCollapse t := by
  cases t with
  | nil => rfl
  | cons c rest =>
    rw [punctAfter, punctCollapse, if_neg (by simp [isTermPunct])]

theorem punctAfter_append_space (t : List Char) :
    ∀ (w : List Char) (p : Char),
      punctAfter p (w ++ ' ' :: t) = punctAfter p w ++ ' ' :: punctCollapse t := by
  intro w
  induction w with
  | nil =>
    intro p
    have hcond : (isTermPunct p && (' ' = p : Bool)) = false := by
      by_cases hp : p = ' '
      · subst hp; rfl
      · simp [show ¬(' ' = p) from fun hh => hp hh.symm]
    simp only [List.nil_append, punctAfter, hcond, Bool.false_eq_true, if_false,
      punctAfter_space_head]
  | cons a w ih =>
    intro p
    by_cases h : (isTermPunct p && a = p) = true
    · rw [List.cons_append, punctAfter, if_pos h, punctAfter, if_pos h, ih p]
    · rw [List.cons_append, punctAfter, if_neg h, punctAfter, if_neg h, ih a,
        List.cons_append]

theorem punctCollapse_joinWords :
    ∀ ws : List (List Char),
      punctCollapse (joinWords ws) = joinWords (ws.map punctCollapse) := by
  intro ws
  induction ws with
  | nil => rfl
  | cons w ws ih =>
    cases ws with
    | nil => rfl
    | cons w2 ws2 =>
      rw [show joinWords (w :: w2 :: ws2) = w ++ ' ' :: joinWords (w2 :: ws2) from rfl]
      cases w with
      | nil =>
        show punctCollapse (' ' :: joinWords (w2 :: ws2)) = _
        rw [punctCollapse, punctAfter_space_head, ih]
        show ' ' :: joinWords ((w2 :: ws2).map punctCollapse) =
          joinWords ([] :: punctCollapse w2 :: ws2.map punctCollapse)
        rfl
      | cons a w' =>
        show punctCollapse (a :: (w' ++ ' ' :: joinWords (w2 :: ws2))) = _
        rw [punctCollapse, punctAfter_append_space, ih]
        show (a :: (punctAfter a w' ++ ' ' :: joinWords ((w2 :: ws2).map punctCollapse))) =
          joinWords (punctCollapse (a :: w') :: (w2 :: ws2).map punctCollapse)
        rfl

theorem punctCollapse_ne_nil (w : List Char) (h : w ≠ []) : punctCollapse w ≠ [] := by
  cases w with
  | nil => exact absurd rfl h
  | cons a w => simp [punctCollapse]

theorem punctCollapse_subset (w : List Char) :
    ∀ c ∈ punctCollapse w, c ∈ w := by
  cases w with
  | nil => simp [punctCollapse]
  | cons a w =>
    intro c hc
    rw [punctCollapse] at hc
    rcases List.mem_cons.mp hc with rfl | hc
    · exact List.mem_cons_self _ _
    · exact List.mem_cons_of_mem _ (punctAfter_subset w a c hc)

/-! #### Identity of the remaining passes on trigger-free input -/

theorem ctrlFilter_eq_self (l : List Char) (h : ∀ c ∈ l, isCtrl c = false) :
    ctrlFilter l = l :=
  List.filter_eq_self.mpr (fun c hc => by simp [h c hc])

theorem hasUrlHead_chars {p : String} {l : List Char} (h : hasUrlHead p l = true) :
    ∀ c ∈ p.data, c ∈ l := by
  unfold hasUrlHead at h
  intro c hc
  cases heq : stripPfx p.data l with
  | none => rw [heq] at h; exact absurd h (by simp)
  | some r =>
    cases r with
    | nil => rw [heq] at h; exact absurd h (by simp)
    | cons a r' =>
      rw [stripPfx_eq_append heq]
      exact List.mem_append_left _ hc

theorem urlMatchAt_false {l : List Char} (h1 : ':' ∉ l) (h2 : '.' ∉ l) :
    urlMatchAt l = false := by
  cases hm : urlMatchAt l
  · rfl
  · exfalso
    unfold urlMatchAt at hm
    rcases Bool.or_eq_true_iff.mp hm with hm' | hwww
    · rcases Bool.or_eq_true_iff.mp hm' with hs | hh
      · exact h1 (hasUrlHead_chars hs ':' (by decide))
      · exact h1 (hasUrlHead_chars hh ':' (by decide))
    · exact h2 (hasUrlHead_chars hwww '.' (by decide))

theorem urlSubTok_eq_self :
    ∀ tok : List Char, ':' ∉ tok → '.' ∉ tok → urlSubTok tok = tok := by
  intro tok
  induction tok with
  | nil => intro _ _; rfl
  | cons c rest ih =>
    intro h1 h2
    rw [urlSubTok, urlMatchAt_false h1 h2]
    simp only [Bool.false_eq_true, if_false]
    rw [ih (fun hm => h1 (List.mem_cons_of_mem _ hm))
      (fun hm => h2 (List.mem_cons_of_mem _ hm))]

theorem emailTail_dot {t : List Char} (h : emailTail t = true) : '.' ∈ t := by
  unfold emailTail at h
  have := List.mem_of_elem_eq_true h
  exact List.tail_subset t (List.mem_of_mem_dropLast this)

theorem emailAfterAt_dot : ∀ l : List Char, emailAfterAt l = true → '.' ∈ l := by
  intro l
  induction l with
  | nil => simp [emailAfterAt]
  | cons c rest ih =>
    intro h
    rw [emailAfterAt] at h
    rcases Bool.or_eq_true_iff.mp h with h' | h'
    · exact List.mem_cons_of_mem _ (emailTail_dot (Bool.and_eq_true_iff.mp h').2)
    · exact List.mem_cons_of_mem _ (ih h')

theorem emailSubTok_eq_self (tok : List Char) (h : '.' ∉ tok) :
    emailSubTok tok = tok := by
  unfold emailSubTok
  cases hs : emailShape tok
  · simp
  · exfalso
    cases tok with
    | nil => simp [emailShape] at hs
    | cons a rest =>
      rw [emailShape] at hs
      exact h (List.mem_cons_of_mem _ (emailAfterAt_dot rest hs))

theorem mapTokensF_eq_self (f : List Char → List Char) (good : Char → Prop)
    (hf : ∀ tok, tok ≠ [] → (∀ c ∈ tok, isPySpace c = false) →
      (∀ c ∈ tok, good c) → f tok = tok) :
    ∀ (n : Nat) (l : List Char), l.length ≤ n → (∀ c ∈ l, good c) →
      mapTokensF f n l = l := by
  intro n
  induction n with
  | zero => intro l _ _; cases l <;> rfl
  | succ n ih =>
    intro l hlen hgood
    cases l with
    | nil => rfl
    | cons c rest =>
      by_cases hc : isPySpace c = true
      · rw [mapTokensF, if_pos (by simp [hc]),
          ih rest (by simpa using Nat.le_of_succ_le_succ (by simpa using hlen))
            (fun d hd => hgood d (List.mem_cons_of_mem _ hd))]
      · have hc' : isPySpace c = false := by simpa using hc
        rw [mapTokensF, if_neg (by simp [hc'])]
        have htok_ne : (c :: rest).takeWhile (fun d => !isPySpace d) ≠ [] := by
          simp [List.takeWhile_cons, hc']
        have htok_sub : ∀ d ∈ (c :: rest).takeWhile (fun d => !isPySpace d),
            d ∈ c :: rest := fun d hd => mem_of_mem_takeWhile' hd
        have htok_ns : ∀ d ∈ (c :: rest).takeWhile (fun d => !isPySpace d),
            isPySpace d = false := by
          intro d hd
          simpa using List.mem_takeWhile_imp hd
        have hdrop : (c :: rest).dropWhile (fun d => !isPySpace d) =
            rest.dropWhile (fun d => !isPySpace d) := by
          simp [List.dropWhile_cons, hc']
        rw [hf _ htok_ne htok_ns (fun d hd => hgood d (htok_sub d hd)),
          hdrop,
          ih (rest.dropWhile (fun d => !isPySpace d))
            (Nat.le_trans (length_dropWhile_le' _ rest)
              (by simpa using Nat.le_of_succ_le_succ (by simpa using hlen)))
            (fun d hd => hgood d (List.mem_cons_of_mem _ (mem_of_mem_dropWhile' hd))),
          ← hdrop, List.takeWhile_append_dropWhile]

theorem startsWithL_head {p : Char} {ps : List Char} {c : Char} {rest : List Char}
    (h : startsWithL (p :: ps) (c :: rest) = true) : c = p := by
  rw [startsWithL] at h
  exact (of_decide_eq_true (Bool.and_eq_true_iff.mp h).1).symm

theorem blockRemoveF_eq_self (os : List Char) (cpat : List Char) :
    ∀ (n : Nat) (l : List Char), '<' ∉ l →
      blockRemoveF ('<' :: os) cpat n l = l := by
  intro n
  induction n with
  | zero => intro l _; cases l <;> rfl
  | succ n ih =>
    intro l h
    cases l with
    | nil => rfl
    | cons c rest =>
      have hsw : startsWithL ('<' :: os) (c :: rest) = false := by
        cases hs : startsWithL ('<' :: os) (c :: rest)
        · rfl
        · exact absurd (startsWithL_head hs ▸ List.mem_cons_self c rest) h
      rw [blockRemoveF, hsw]
      simp only [Bool.false_eq_true, if_false]
      rw [ih rest (fun hm => h (List.mem_cons_of_mem _ hm))]

theorem tagSubF_eq_self :
    ∀ (n : Nat) (l : List Char), '<' ∉ l → tagSubF n l = l := by
  intro n
  induction n with
  | zero => intro l _; cases l <;> rfl
  | succ n ih =>
    intro l h
    cases l with
    | nil => rfl
    | cons c rest =>
      have hc : ¬(c = '<') := fun hcc => h (hcc ▸ List.mem_cons_self c rest)
      rw [tagSubF, if_neg hc, ih rest (fun hm => h (List.mem_cons_of_mem _ hm))]

theorem unescape_eq_self (l : List Char) (h : '&' ∉ l) : unescape l = l := by
  have hc : l.contains '&' = false := by
    cases hcc : l.contains '&'
    · rfl
    · exact absurd (List.mem_of_elem_eq_true hcc) h
  unfold unescape
  rw [hc]
  simp

/-! #### The normal form of `clean` on trigger-free strings, and C4 -/

theorem collapseWs_chars (l : List Char) :
    ∀ c ∈ collapseWs l, c ∈ l ∨ c = ' ' := by
  intro c hc
  rcases mem_joinWords _ c hc with ⟨w, hw, hcw⟩ | rfl
  · exact Or.inl ((pyWords_sound l w hw).2 c hcw).2
  · exact Or.inr rfl

theorem cleanNormal_props (l : List Char) :
    ∀ w ∈ (pyWords l).map punctCollapse,
      w ≠ [] ∧ ∀ c ∈ w, isPySpace c = false := by
  intro w hw
  rcases List.mem_map.mp hw with ⟨w0, hw0, rfl⟩
  exact ⟨punctCollapse_ne_nil _ (pyWords_sound l w0 hw0).1,
    fun c hc => ((pyWords_sound l w0 hw0).2 c (punctCollapse_subset _ c hc)).1⟩

theorem cleanNormal_chars (l : List Char) (h : ∀ c ∈ l, okChar c = true) :
    ∀ c ∈ joinWords ((pyWords l).map punctCollapse), okChar c = true := by
  intro c hc
  rcases mem_joinWords _ c hc with ⟨w, hw, hcw⟩ | rfl
  · rcases List.mem_map.mp hw with ⟨w0, hw0, rfl⟩
    exact h c ((pyWords_sound l w0 hw0).2 c (punctCollapse_subset _ c hcw)).2
  · exact okChar_space

/-- On a string of non-trigger characters, `_clean_text` reduces to
whitespace collapse followed by per-word punctuation collapse: the
entity, control, URL, email, script, style, tag and strip passes are all
the identity there. -/
theorem cleanChars_ok (l : List Char) (h : ∀ c ∈ l, okChar c = true) :
    cleanChars l = joinWords ((pyWords l).map punctCollapse) := by
  by_cases hnil : l = []
  · subst hnil
    rfl
  · have hok2 : ∀ c ∈ collapseWs l, okChar c = true := by
      intro c hc
      rcases collapseWs_chars l c hc with hcl | rfl
      · exact h c hcl
      · exact okChar_space
    unfold cleanChars
    rw [if_neg hnil,
      unescape_eq_self l (fun hm => (okChar_spec (h _ hm)).1 rfl),
      ctrlFilter_eq_self _ (fun c hc => (okChar_spec (hok2 c hc)).2.2.2.2),
      show urlSub (collapseWs l) = collapseWs l from
        mapTokensF_eq_self urlSubTok (fun c => okChar c = true)
          (fun tok _ _ hg => urlSubTok_eq_self tok
            (fun hm => (okChar_spec (hg _ hm)).2.2.1 rfl)
            (fun hm => (okChar_spec (hg _ hm)).2.2.2.1 rfl))
          _ _ le_rfl hok2,
      show emailSub (collapseWs l) = collapseWs l from
        mapTokensF_eq_self emailSubTok (fun c => okChar c = true)
          (fun tok _ _ hg => emailSubTok_eq_self tok
            (fun hm => (okChar_spec (hg _ hm)).2.2.2.1 rfl))
          _ _ le_rfl hok2,
      show collapseWs l = joinWords (pyWords l) from rfl,
      punctCollapse_joinWords]
    set r := joinWords ((pyWords l).map punctCollapse) with hr
    have hrchars : ∀ c ∈ r, okChar c = true := cleanNormal_chars l h
    have hlt : '<' ∉ r := fun hm => (okChar_spec (hrchars _ hm)).2.1 rfl
    rw [show scriptRemove r = r from
        blockRemoveF_eq_self "script".data "</script>".data r.length r hlt,
      show styleRemove r = r from
        blockRemoveF_eq_self "style".data "</style>".data r.length r hlt,
      show tagSub r = r from tagSubF_eq_self r.length r hlt]
    exact pyStrip_eq_self r
      (joinWords_head_not_space _ (cleanNormal_props l))
      (joinWords_getLast_not_space _ (cleanNormal_props l))

/-- C4 counterexample: `clean` is not idempotent.  On `"a<b>.</b>."` the
first pass removes the tags after the punctuation collapse already ran,
leaving `"a.."`; the second pass collapses that to `"a."`. -/
theorem clean_not_idempotent :
    clean (clean "a<b>.</b>.") ≠ clean "a<b>.</b>." := by decide

/-- C4 (amended): `clean` is idempotent on every string containing none of
the pass-trigger characters — no `&` (entities), `<` (markup), `:` or `.`
(URL/email heads) and no control characters.  (Each exclusion is forced:
markup interacts with punctuation collapse as in the counterexample,
`&amp;amp;` unescapes twice, a removed control character can leave a
double space, and exposed `www.`/`:`-URLs or dotted emails can match only
on the second pass.) -/
theorem clean_idempotent_on_safe (s : String)
    (h : ∀ c ∈ s.data, okChar c = true) :
    clean (clean s) = clean s := by
  show String.mk (cleanChars (String.mk (cleanChars s.data)).data) =
    String.mk (cleanChars s.data)
  have hdata : (String.mk (cleanChars s.data)).data = cleanChars s.data := rfl
  rw [hdata]
  congr 1
  rw [cleanChars_ok s.data h,
    cleanChars_ok _ (cleanNormal_chars s.data h),
    pyWords_joinWords _ (cleanNormal_props s.data),
    List.map_map]
  congr 1
  exact List.map_congr_left fun w _ => punctCollapse_idem w

/-- Closed instance of the amended C4 at a concrete safe string. -/
theorem clean_idempotent_on_safe_witness :
    clean (clean "so   cool!! ok??  ") = clean "so   cool!! ok??  " :=
  clean_idempotent_on_safe _ (by decide)

end SeleniumCrawler
